import Mathlib

/-!
Verification of the islamic-datasets ingestion and redistribution pipeline
(src/quran-translations/translations_quranenc.com.js and
src/quran-translations/split_translations.js).

The JavaScript source is shallowly embedded: JS objects whose field sets
matter are modelled as association lists over a small JS-value type
(so that accessing a missing field yields the JS `undefined`), JS strings
are modelled as `String` or as `List Char` where character-level reasoning
is needed, and the imperative loops are modelled as structural folds or
fuel-based recursions (the fuel is always at least the number of loop
iterations the JS loop performs, so the models compute the same results).
File-system writes are modelled as the sequence of write events or as the
string the file holds after the writes.
-/

set_option maxRecDepth 4000
set_option linter.unusedVariables false

/-! ## A small model of JavaScript values

Used where the source reads object fields that may be absent:
`row[header]` in `objectsToCSV`, and the `ayah.aya` accesses in
`processTranslation` (translations_quranenc.com.js lines 146-194). -/

/-- A JavaScript value as far as the pipeline's records need: `undefined`
(reading an absent field), a string, or a number. -/
inductive JsVal where
  | undef
  | vstr (s : String)
  | vnum (n : Nat)
deriving DecidableEq

/-- Reading field `field` of a JS object modelled as an association list:
a present key yields its value, an absent key yields `undefined`. -/
def jget (row : List (String × JsVal)) (field : String) : JsVal :=
  match row.find? (fun p => p.1 == field) with
  | some p => p.2
  | none => JsVal.undef

/-- JS truthiness on the values above: `undefined`, the empty string and
the number 0 are falsy. -/
def jsFalsy : JsVal → Bool
  | JsVal.undef => true
  | JsVal.vstr s => s == ""
  | JsVal.vnum n => n == 0

/-- The JS idiom `x || ''` applied to a field value. -/
def jsOrEmptyStr (v : JsVal) : JsVal :=
  if jsFalsy v then JsVal.vstr "" else v

/-- The value pipeline of `objectsToCSV` before escaping
(translations_quranenc.com.js line 41): `row[header]?.toString() || ''`.
`undefined?.toString()` is `undefined`, which `|| ''` turns into the empty
string; a number is rendered in decimal; a string passes through. -/
def csvFieldOfJs : JsVal → String
  | JsVal.undef => ""
  | JsVal.vstr s => s
  | JsVal.vnum n => toString n

/-! ## Ingestion: per-verse records (translations_quranenc.com.js)

`processTranslation` maps the API verse objects (fields `sura`, `aya`,
`arabic_text`, `translation`, optional `footnotes`) to `processedData`
rows (lines 118-124), then derives `parallelCorpus` rows (146-151),
`enhancedData` rows (159-169) and the per-surah ayah entries of the
hierarchical JSON document (183-194) from the `processedData` rows. -/

/-- One verse object as returned by the source API
(`GET /translation/sura/{key}/{n}`, element of `data.result`). -/
structure SrcAyah where
  sura : Nat
  aya : Nat
  arabic_text : String
  translation : String
  footnotes : Option String
deriving DecidableEq

/-- The JS `s.replace(/\n/g, ' ')`. -/
def replaceNewlines (s : String) : String :=
  s.replace ("\n") (" ")

/-- A `processedData` row (translations_quranenc.com.js lines 118-124):
field `aya` of the source object is renamed to `ayah`, newlines in
`translation` and `footnotes` are replaced by spaces, and a falsy
`footnotes` becomes the empty string. Note the row has a field `ayah`
and no field `aya`. -/
def processedRow (a : SrcAyah) : List (String × JsVal) :=
  [(("surah"), JsVal.vnum a.sura),
   (("ayah"), JsVal.vnum a.aya),
   (("arabic_text"), JsVal.vstr a.arabic_text),
   (("translation"), JsVal.vstr (replaceNewlines a.translation)),
   (("footnotes"), JsVal.vstr (match a.footnotes with
      | some f => if f == "" then "" else replaceNewlines f
      | none => ""))]

/-- A `parallelCorpus` row (lines 146-151), derived from a `processedData`
row: `{surah: ayah.surah, ayah: ayah.aya, arabic: ayah.arabic_text,
translation: ayah.translation}`. The source reads `ayah.aya` here even
though `processedData` rows carry the verse number under the key `ayah`. -/
def parallelCorpusRow (row : List (String × JsVal)) : List (String × JsVal) :=
  [(("surah"), jget row ("surah")),
   (("ayah"), jget row ("aya")),
   (("arabic"), jget row ("arabic_text")),
   (("translation"), jget row ("translation"))]

/-- An `enhancedData` row (lines 159-169), derived from a `processedData`
row plus the translation's catalog fields; the verse number is again read
as `ayah.aya`. -/
def enhancedRow (key language_iso_code title version : String)
    (row : List (String × JsVal)) : List (String × JsVal) :=
  [(("translation_key"), JsVal.vstr key),
   (("language_code"), JsVal.vstr language_iso_code),
   (("translation_title"), JsVal.vstr title),
   (("translation_version"), JsVal.vstr version),
   (("surah"), jget row ("surah")),
   (("ayah"), jget row ("aya")),
   (("arabic_text"), jget row ("arabic_text")),
   (("translation"), jget row ("translation")),
   (("footnotes"), jsOrEmptyStr (jget row ("footnotes")))]

/-- A per-surah ayah entry of the hierarchical JSON document
(lines 188-193): `{ayah: ayah.aya, arabic_text: ..., translation: ...,
footnotes: ayah.footnotes || ''}`, derived from a `processedData` row. -/
def jsonAyahEntry (row : List (String × JsVal)) : List (String × JsVal) :=
  [(("ayah"), jget row ("aya")),
   (("arabic_text"), jget row ("arabic_text")),
   (("translation"), jget row ("translation")),
   (("footnotes"), jsOrEmptyStr (jget row ("footnotes")))]

/-! ## The CSV field encoder (objectsToCSV, both source files)

translations_quranenc.com.js lines 40-47 and split_translations.js lines
46-52: a field value is wrapped in quotes with internal quotes doubled if
it contains a comma, newline or quote; otherwise written bare. Modelled on
`List Char` so that the character-level round-trip can be proved. -/

/-- The wrapping condition of the encoder:
`value.includes(',') || value.includes('\n') || value.includes('"')`. -/
def needsQuoting (value : List Char) : Bool :=
  value.contains ',' || value.contains '\n' || value.contains '"'

/-- The JS `value.replace(/"/g, '""')`: every quote is doubled. -/
def doubleQuotesCh : List Char → List Char
  | [] => []
  | c :: rest =>
    if c = '"' then '"' :: '"' :: doubleQuotesCh rest
    else c :: doubleQuotesCh rest

/-- The CSV field encoder of `objectsToCSV`: wrap in quotes with internal
quotes doubled when the value contains a comma, newline or quote, else
write the value bare. -/
def csvEscapeField (value : List Char) : List Char :=
  if needsQuoting value then '"' :: (doubleQuotesCh value ++ ['"'])
  else value

/-- Collapsing doubled quotes, the inverse step of the standard CSV
decoding rule. -/
def unDoubleQuotes : List Char → List Char
  | [] => []
  | ['"'] => ['"']
  | '"' :: '"' :: rest => '"' :: unDoubleQuotes rest
  | c :: rest => c :: unDoubleQuotes rest

/-- The standard CSV field decoding rule: a field that begins and ends
with a quote (and has length at least 2) is unwrapped and its doubled
quotes collapsed; any other field is taken verbatim. -/
def decodeCSVField (s : List Char) : List Char :=
  if 2 ≤ s.length ∧ s.head? = some '"' ∧ s.getLast? = some '"' then
    unDoubleQuotes (s.drop 1).dropLast
  else s

/-! ## The verse fetcher (getTranslationForAllSurahs)

translations_quranenc.com.js lines 67-91: one request per surah number 1
to 114, in ascending order; a thrown fetch error is caught and logged, a
response without an array `result` contributes nothing, and in both cases
the loop continues with the next surah number. -/

/-- The outcome of the request for one surah: `ok result` when the call
returned an object with an array `result` field, `malformed` when the
response parsed but `data.result` was missing or not an array, and
`fetchError` when `fetchAPI` threw (non-2xx status or transport error). -/
inductive SurahOutcome (α : Type) where
  | ok (result : List α)
  | malformed
  | fetchError
deriving DecidableEq

/-- What one surah contributes to the concatenated result: its verse list
on success, nothing on a malformed response or a fetch error. -/
def surahContribution {α : Type} : SurahOutcome α → List α
  | SurahOutcome.ok result => result
  | SurahOutcome.malformed => []
  | SurahOutcome.fetchError => []

/-- The fetch loop of `getTranslationForAllSurahs`: iterate the surah
numbers 1..114 in ascending order, appending `data.result` when it is an
array and appending nothing otherwise (the catch block only logs and
waits). The rate-limit delays do not affect the accumulated data and are
not modelled. -/
def getTranslationForAllSurahs {α : Type} (outcome : Nat → SurahOutcome α) : List α :=
  (List.range' 1 114).foldl (fun acc n =>
    match outcome n with
    | SurahOutcome.ok result => acc ++ result
    | SurahOutcome.malformed => acc
    | SurahOutcome.fetchError => acc) []

/-! ## Grouping by a key, in insertion order

Both source files build JS objects / Maps keyed by a computed key and
append each record to its key's array, creating the array on the key's
first occurrence (`surahGroups` and `jsonData.surahs` in
translations_quranenc.com.js, `languageMap` and `versionMap` and the
regrouping in split_translations.js). Modelled as an association list in
key-first-occurrence order, each group in record order. -/

/-- Append `b` to the group of key `k`, creating the group at the end on
the key's first occurrence (the JS `if (!m[k]) m[k] = []; m[k].push(b)`). -/
def insertGrouped {κ β : Type} [DecidableEq κ] :
    List (κ × List β) → κ → β → List (κ × List β)
  | [], k, b => [(k, [b])]
  | p :: rest, k, b =>
    if p.1 = k then (p.1, p.2 ++ [b]) :: rest
    else p :: insertGrouped rest k b

/-- Group a list by a key function, keys in first-occurrence order, each
group in list order. -/
def groupByKey {κ β : Type} [DecidableEq κ] (f : β → κ) (xs : List β) :
    List (κ × List β) :=
  xs.foldl (fun acc b => insertGrouped acc (f b) b) []

/-! ## The per-translation writer (processTranslation)

translations_quranenc.com.js lines 94-211. The artifact writes are
modelled as the ordered list of files written; the fetch is parametrised
by the per-surah outcomes. `metadata.json` is written (line 104) before
the verses are fetched (line 110); when zero verses come back the
function returns null (line 114) without writing any CSV artifact. The
catch branch (filesystem failure, lines 203-210) cannot fire in the pure
model but its result shape is kept for the main-loop counting. -/

/-- A translation catalog entry, the fields `processTranslation`
destructures (line 95). -/
structure TransMeta where
  key : String
  language_iso_code : String
  title : String
  version : String
deriving DecidableEq

/-- One artifact write of `processTranslation`, in program order. -/
inductive Artifact where
  | metadataJson
  | fullTranslationCsv
  | surahCsv (surahKey : JsVal)
  | parallelCorpusCsv
deriving DecidableEq

/-- The non-null result value of `processTranslation`: the success object
(lines 197-202, carrying `ayah_count` and the JSON document) or the
caught-error object (lines 205-209, no `json_data` field). -/
inductive TResult where
  | success (ayah_count : Nat)
  | failure (msg : String)
deriving DecidableEq

/-- `processTranslation` (lines 94-211): writes `metadata.json`, fetches
all surahs, and on zero verses returns null having written nothing else;
otherwise writes `full_translation.csv`, one `surah_*.csv` per surah key
of `surahGroups` in first-occurrence order, and `parallel_corpus.csv`,
and returns the success result. -/
def processTranslation (t : TransMeta) (outcome : Nat → SurahOutcome SrcAyah) :
    List Artifact × Option TResult :=
  let allAyahs := getTranslationForAllSurahs outcome
  if allAyahs.length = 0 then ([Artifact.metadataJson], none)
  else
    let processedData := allAyahs.map processedRow
    ([Artifact.metadataJson, Artifact.fullTranslationCsv] ++
      (groupByKey (fun r => jget r ("surah")) processedData).map
        (fun g => Artifact.surahCsv g.1) ++
      [Artifact.parallelCorpusCsv],
     some (TResult.success allAyahs.length))

/-- The success/error counting of the per-translation loop in `main`
(lines 326-342), started from given counters: a null result increments
the error count, a result with `json_data` increments the success count,
a result without `json_data` increments the error count; in every case
the loop continues with the remaining translations. -/
def mainLoopFrom : Nat × Nat → List (TransMeta × (Nat → SurahOutcome SrcAyah)) → Nat × Nat
  | counts, [] => counts
  | (s, e), item :: rest =>
    match (processTranslation item.1 item.2).2 with
    | none => mainLoopFrom (s, e + 1) rest
    | some (TResult.success _) => mainLoopFrom (s + 1, e) rest
    | some (TResult.failure _) => mainLoopFrom (s, e + 1) rest

/-! ## The chunked tabular writer (saveChunkedData)

translations_quranenc.com.js lines 214-239: on an empty buffer, return
without writing; on the first chunk, create the file with the header row;
then append the buffer in sub-chunks of `chunkSize` rows. The file is
modelled as the list of write events. In `main` (lines 359-364) the
writer is called with `chunkSize = 1000`, the first call with
`isFirstChunk = true` and all later calls with `false` (the flag is
cleared after every call, even one that wrote nothing). -/

/-- One write of the chunked tabular writer: the header row
(`fs.writeFile`) or one sub-chunk of data rows (`fs.appendFile`). -/
inductive CsvWrite (α : Type) where
  | header
  | data (rows : List α)
deriving DecidableEq

/-- Splitting a list into consecutive chunks of `cs` elements (the last
chunk may be shorter), the slicing loop of `saveChunkedData` (lines
229-236). Fuel-based so that it computes by kernel reduction; fuel at
least `l.length` suffices when `1 ≤ cs`. -/
def chunksOfAux {α : Type} (cs : Nat) : Nat → List α → List (List α)
  | 0, _ => []
  | _, [] => []
  | fuel + 1, l => l.take cs :: chunksOfAux cs fuel (l.drop cs)

/-- Splitting a list into consecutive chunks of `cs` elements. -/
def chunksOf {α : Type} (cs : Nat) (l : List α) : List (List α) :=
  chunksOfAux cs l.length l

/-- `saveChunkedData` (lines 214-239) as the list of writes it performs:
nothing on an empty buffer; else the header (first chunk only) followed
by the buffer in sub-chunks of `chunkSize` rows. -/
def saveChunkedData {α : Type} (buf : List α) (chunkSize : Nat)
    (isFirstChunk : Bool) : List (CsvWrite α) :=
  if buf.length = 0 then []
  else
    (if isFirstChunk then [CsvWrite.header] else []) ++
      (chunksOf chunkSize buf).map CsvWrite.data

/-- The sequence of CSV writes over a whole run: `main` calls
`saveChunkedData(buffer, 1000, firstCSVChunk)` for each flushed buffer
and clears the first-chunk flag after every call (lines 359-364). -/
def csvFlushRunAux {α : Type} : List (List α) → Bool → List (CsvWrite α)
  | [], _ => []
  | b :: rest, isFirst => saveChunkedData b 1000 isFirst ++ csvFlushRunAux rest false

/-- All CSV writes of a run whose flushed buffers are `flushes`, the
first flush with the first-chunk flag set. -/
def csvFlushRun {α : Type} (flushes : List (List α)) : List (CsvWrite α) :=
  csvFlushRunAux flushes true

/-- The number of header writes in a write sequence. -/
def headerCount {α : Type} (ws : List (CsvWrite α)) : Nat :=
  ws.countP (fun w => match w with | CsvWrite.header => true | _ => false)

/-- The total number of data rows in a write sequence. -/
def dataRowCount {α : Type} (ws : List (CsvWrite α)) : Nat :=
  (ws.map (fun w => match w with
    | CsvWrite.header => 0
    | CsvWrite.data rows => rows.length)).sum

/-! ## The streaming JSON array writer (saveJsonData)

translations_quranenc.com.js lines 242-278: on an empty buffer, return
without writing (even when the final-chunk flag is set); on the first
chunk overwrite the file with the array start; append each document
followed by a comma and newline unless it is the last document of the
final chunk, which is followed by a newline only; append the array end
after the loop of the final chunk. Documents are modelled by their
serialized text (`JSON.stringify(doc, null, 2)`), the file by the
character list it holds. -/

/-- The document-appending loop of `saveJsonData` (lines 256-271): each
document followed by a comma and newline, except the last document when
the final-chunk flag is set, which is followed by a newline only. -/
def appendJsonDocs : List (List Char) → Bool → List Char
  | [], _ => []
  | [d], isFinalChunk => d ++ (if isFinalChunk then ['\n'] else [',', '\n'])
  | d :: rest, isFinalChunk => (d ++ [',', '\n']) ++ appendJsonDocs rest isFinalChunk

/-- `saveJsonData` (lines 242-278) as a transformation of the file
contents: the empty buffer returns the file unchanged; otherwise the
first chunk replaces the file with the array start, the documents are
appended, and the final chunk appends the array end. -/
def saveJsonData (docs : List (List Char)) (isFirstChunk isFinalChunk : Bool)
    (file : List Char) : List Char :=
  if docs.length = 0 then file
  else
    let base := if isFirstChunk then ['[', '\n'] else file
    let withDocs := base ++ appendJsonDocs docs isFinalChunk
    if isFinalChunk then withDocs ++ [']'] else withDocs

/-- The consolidated JSON file at the end of a fully completed run whose
flushed buffers are `buffers`: `main` (lines 367-373) calls
`saveJsonData(buffer, firstJSONChunk, isFinalChunk)` for each flushed
buffer, clears the first-chunk flag after every call, and the run's last
flush (at the last translation) carries the final-chunk flag. -/
def jsonFlushRunAux : List (List (List Char)) → Bool → List Char → List Char
  | [], _, file => file
  | [b], isFirst, file => saveJsonData b isFirst true file
  | b :: rest, isFirst, file => jsonFlushRunAux rest false (saveJsonData b isFirst false file)

/-- The consolidated JSON file text produced by a fully completed run
with flushed buffers `buffers`. -/
def jsonFlushRun (buffers : List (List (List Char))) : List Char :=
  jsonFlushRunAux buffers true []

/-! ## CSV flattening of a hierarchical document (flattenTranslationForCSV)

split_translations.js lines 60-85: one flat record per ayah, iterating
the surah-keyed mapping in the order the mapping yields keys, then the
ayah list in stored order. The JS object `surahs` is modelled as an
association list in that key order; a JS object cannot hold a key twice,
which is expressed as a `Nodup` hypothesis where needed. -/

/-- One ayah entry of a hierarchical translation document. -/
structure AyahEntry where
  ayah : Nat
  arabic_text : String
  translation : String
  footnotes : String
deriving DecidableEq

/-- A hierarchical translation document as persisted in
`all_translations.json` and re-read by the redistribution stage. -/
structure TranslationDoc where
  translation_key : String
  language_code : String
  translation_title : String
  translation_version : String
  surahs : List (String × List AyahEntry)
deriving DecidableEq

/-- One flattened verse record (the object pushed at
split_translations.js lines 70-80). -/
structure FlatRow where
  translation_key : String
  language_code : String
  translation_title : String
  translation_version : String
  surah : String
  ayah : Nat
  arabic_text : String
  translation : String
  footnotes : String
deriving DecidableEq

/-- The flat record built for surah key `k` and ayah entry `a` of
document `t`: `translation_version || ''` and `footnotes || ''` turn an
empty (falsy) string into the empty string and keep any other string. -/
def rowOf (t : TranslationDoc) (k : String) (a : AyahEntry) : FlatRow :=
  { translation_key := t.translation_key,
    language_code := t.language_code,
    translation_title := t.translation_title,
    translation_version :=
      if t.translation_version == "" then "" else t.translation_version,
    surah := k,
    ayah := a.ayah,
    arabic_text := a.arabic_text,
    translation := a.translation,
    footnotes := if a.footnotes == "" then "" else a.footnotes }

/-- `flattenTranslationForCSV` (lines 60-85): for each surah key in
mapping order, for each ayah in stored order, one flat record. -/
def flattenTranslationForCSV (t : TranslationDoc) : List FlatRow :=
  t.surahs.flatMap (fun p => p.2.map (rowOf t p.1))

/-- The ayah entry a flat record carries. -/
def entryOfRow (r : FlatRow) : AyahEntry :=
  { ayah := r.ayah,
    arabic_text := r.arabic_text,
    translation := r.translation,
    footnotes := r.footnotes }

/-- Re-grouping flattened records by their `surah` value, keys in
first-occurrence order, entries in record order. -/
def regroupBySurah (rows : List FlatRow) : List (String × List AyahEntry) :=
  (groupByKey (fun r => r.surah) rows).map (fun p => (p.1, p.2.map entryOfRow))

/-! ## A model of JSON.parse

The incremental reader (split_translations.js line 141) hands candidate
substrings to the platform's `JSON.parse`. Modelled as a recursive
descent parser of the JSON grammar over `List Char` (numbers are kept as
their raw text and accepted slightly more leniently than the JSON number
grammar; no theorem depends on number syntax). A parse succeeds only when
nothing but whitespace follows the value. -/

/-- A parsed JSON value. -/
inductive JVal where
  | jnull
  | jbool (b : Bool)
  | jnum (raw : List Char)
  | jstr (s : List Char)
  | jarr (elems : List JVal)
  | jobj (members : List (List Char × JVal))

/-- Recognizer for the empty JSON object value (used to state concrete
facts about reader output without a decidable equality on the nested
inductive type). -/
def jvalIsEmptyObj : JVal → Bool
  | JVal.jobj [] => true
  | _ => false

/-- JSON whitespace. -/
def isJsonWs (c : Char) : Bool :=
  c = ' ' || c = '\n' || c = '\t' || c = '\r'

/-- Drop leading JSON whitespace. -/
def skipJsonWs (l : List Char) : List Char :=
  l.dropWhile isJsonWs

/-- Decimal digit test. -/
def isJsonDigit (c : Char) : Bool :=
  '0' ≤ c && c ≤ '9'

/-- Value of a hex digit, if it is one (code points compared
numerically: 0-9 are 48-57, a-f are 97-102, A-F are 65-70). -/
def hexDigitVal (c : Char) : Option Nat :=
  let n := c.toNat
  if 48 ≤ n ∧ n ≤ 57 then some (n - 48)
  else if 97 ≤ n ∧ n ≤ 102 then some (n - 87)
  else if 65 ≤ n ∧ n ≤ 70 then some (n - 55)
  else none

/-- Read `k` hex digits, accumulating their value, and return the value
with the remaining input. -/
def readHexDigits : Nat → Nat → List Char → Option (Nat × List Char)
  | 0, acc, l => some (acc, l)
  | k + 1, acc, l =>
    match l with
    | [] => none
    | c :: rest =>
      match hexDigitVal c with
      | some v => readHexDigits k (acc * 16 + v) rest
      | none => none

/-- The character denoted by a single-character string escape. -/
def jsonEscapeChar (e : Char) : Option Char :=
  if e = '"' then some '"'
  else if e = '\\' then some '\\'
  else if e = '/' then some '/'
  else if e = 'b' then some (Char.ofNat 8)
  else if e = 'f' then some (Char.ofNat 12)
  else if e = 'n' then some '\n'
  else if e = 'r' then some '\r'
  else if e = 't' then some '\t'
  else none

/-- Parse a JSON string body after the opening quote; returns the decoded
content and the remaining input after the closing quote. Fuel-based
because the `\uXXXX` branch consumes a computed amount of input;
`input.length + 1` always suffices since every branch consumes at least
one character. -/
def parseJsonStringBody : Nat → List Char → Option (List Char × List Char)
  | 0, _ => none
  | fuel + 1, l =>
    match l with
    | [] => none
    | '"' :: rest => some ([], rest)
    | '\\' :: esc =>
      (match esc with
       | [] => none
       | e :: rest =>
         if e = 'u' then
           match readHexDigits 4 0 rest with
           | some (n, rest2) =>
             (fun p => (Char.ofNat n :: p.1, p.2)) <$> parseJsonStringBody fuel rest2
           | none => none
         else
           match jsonEscapeChar e with
           | some c => (fun p => (c :: p.1, p.2)) <$> parseJsonStringBody fuel rest
           | none => none)
    | c :: rest => (fun p => (c :: p.1, p.2)) <$> parseJsonStringBody fuel rest

/-- Parse a JSON number as its raw text (lenient about leading zeros). -/
def parseJsonNumber (l : List Char) : Option (List Char × List Char) :=
  let signed := match l with
    | '-' :: r => (['-'], r)
    | _ => (([] : List Char), l)
  let intPart := signed.2.takeWhile isJsonDigit
  let rest2 := signed.2.dropWhile isJsonDigit
  if intPart = [] then none
  else
    let fractioned := match rest2 with
      | '.' :: r =>
        let ds := r.takeWhile isJsonDigit
        if ds = [] then (([] : List Char), rest2)
        else ('.' :: ds, r.dropWhile isJsonDigit)
      | _ => (([] : List Char), rest2)
    let exponented := match fractioned.2 with
      | e :: r =>
        if e = 'e' ∨ e = 'E' then
          let sg := match r with
            | '+' :: rr => ((['+'] : List Char), rr)
            | '-' :: rr => ((['-'] : List Char), rr)
            | _ => (([] : List Char), r)
          let ds := sg.2.takeWhile isJsonDigit
          if ds = [] then (([] : List Char), fractioned.2)
          else (e :: (sg.1 ++ ds), sg.2.dropWhile isJsonDigit)
        else (([] : List Char), fractioned.2)
      | _ => (([] : List Char), fractioned.2)
    some (signed.1 ++ intPart ++ fractioned.1 ++ exponented.1, exponented.2)

mutual

/-- Parse one JSON value; the fuel bounds the recursion depth and
`input.length + 1` always suffices. -/
def parseJsonVal : Nat → List Char → Option (JVal × List Char)
  | 0, _ => none
  | fuel + 1, l =>
    match skipJsonWs l with
    | '{' :: rest =>
      (match skipJsonWs rest with
       | '}' :: rest2 => some (JVal.jobj [], rest2)
       | _ => (fun p => (JVal.jobj p.1, p.2)) <$> parseJsonMembers fuel rest)
    | '[' :: rest =>
      (match skipJsonWs rest with
       | ']' :: rest2 => some (JVal.jarr [], rest2)
       | _ => (fun p => (JVal.jarr p.1, p.2)) <$> parseJsonElems fuel rest)
    | '"' :: rest => (fun p => (JVal.jstr p.1, p.2)) <$> parseJsonStringBody fuel rest
    | 't' :: 'r' :: 'u' :: 'e' :: rest => some (JVal.jbool true, rest)
    | 'f' :: 'a' :: 'l' :: 's' :: 'e' :: rest => some (JVal.jbool false, rest)
    | 'n' :: 'u' :: 'l' :: 'l' :: rest => some (JVal.jnull, rest)
    | rest => (fun p => (JVal.jnum p.1, p.2)) <$> parseJsonNumber rest

/-- Parse the members of a JSON object after its opening brace, ending at
the closing brace (the empty-object case is handled by the caller). -/
def parseJsonMembers : Nat → List Char → Option (List (List Char × JVal) × List Char)
  | 0, _ => none
  | fuel + 1, l =>
    match skipJsonWs l with
    | '"' :: rest =>
      (match parseJsonStringBody fuel rest with
       | none => none
       | some (key, rest2) =>
         match skipJsonWs rest2 with
         | ':' :: rest3 =>
           (match parseJsonVal fuel rest3 with
            | none => none
            | some (v, rest4) =>
              match skipJsonWs rest4 with
              | ',' :: rest5 =>
                (fun p => ((key, v) :: p.1, p.2)) <$> parseJsonMembers fuel rest5
              | '}' :: rest5 => some ([(key, v)], rest5)
              | _ => none)
         | _ => none)
    | _ => none

/-- Parse the elements of a JSON array after its opening bracket, ending
at the closing bracket (the empty-array case is handled by the caller). -/
def parseJsonElems : Nat → List Char → Option (List JVal × List Char)
  | 0, _ => none
  | fuel + 1, l =>
    match parseJsonVal fuel l with
    | none => none
    | some (v, rest) =>
      match skipJsonWs rest with
      | ',' :: rest2 => (fun p => (v :: p.1, p.2)) <$> parseJsonElems fuel rest2
      | ']' :: rest2 => some ([v], rest2)
      | _ => none

end

/-- The model of `JSON.parse`: parse one value and require that only
whitespace follows. -/
def jsonParse (l : List Char) : Option JVal :=
  match parseJsonVal (l.length + 1) l with
  | some (v, rest) => if skipJsonWs rest = [] then some v else none
  | none => none

/-! ## The incremental JSON array reader (readJsonInChunks)

split_translations.js lines 88-170: start one byte past the array start;
while more than one byte remains, read up to the buffer size, prepend the
carried-over leftover, and scan the combined chunk from its beginning
with fresh scanner state, tracking string-literal state (with
backslash-escape lookahead) and a brace-depth counter; when the depth
returns to zero at a closing brace, hand `chunk.substring(startIdx, i+1)`
to `JSON.parse`, yield the object on success and drop it on failure, then
skip any following commas, newlines and spaces; at the end of the chunk
carry `chunk.substring(startIdx)` over to the next read. The file is
modelled as a character list (the concrete inputs proved about are
ASCII, where byte positions and character positions coincide); the read
size is the model's parameter in place of the 1MB buffer. Loops are
fuel-based; the fuel supplied by the entry points always exceeds the
iteration count (the scan index and the file position advance by at least
one per iteration). -/

/-- The comma/newline/space skipping loop after a yielded object
(lines 149-155), returning the first position at or after `j` whose
character is not skipped. -/
def skipSepAux : List Char → Nat → Nat
  | c :: rest, j =>
    if c = ',' || c = '\n' || c = ' ' then skipSepAux rest (j + 1) else j
  | [], j => j

/-- Position of the next unskipped character at or after `j` in `chunk`. -/
def skipSep (chunk : List Char) (j : Nat) : Nat :=
  skipSepAux (chunk.drop j) j

/-- The character scan over one combined chunk (lines 114-162), carrying
the loop index, the object-start index, the brace depth, the
string-literal and escape flags, and the objects yielded so far. Returns
the yielded objects and the final object-start index (the carry-over
boundary). -/
def scanLoop (chunk : List Char) :
    Nat → Nat → Nat → Int → Bool → Bool → List JVal → List JVal × Nat
  | 0, _, startIdx, _, _, _, acc => (acc, startIdx)
  | fuel + 1, i, startIdx, bracketCount, inString, escapeNext, acc =>
    if i < chunk.length then
      let c := chunk.getD i ' '
      if escapeNext then
        scanLoop chunk fuel (i + 1) startIdx bracketCount inString false acc
      else if c = '\\' then
        scanLoop chunk fuel (i + 1) startIdx bracketCount inString true acc
      else if c = '"' then
        scanLoop chunk fuel (i + 1) startIdx bracketCount (!inString) escapeNext acc
      else if inString then
        scanLoop chunk fuel (i + 1) startIdx bracketCount inString escapeNext acc
      else if c = '{' then
        scanLoop chunk fuel (i + 1) startIdx (bracketCount + 1) inString escapeNext acc
      else if c = '}' then
        if bracketCount - 1 = 0 then
          let jsonStr := (chunk.take (i + 1)).drop startIdx
          let acc2 := match jsonParse jsonStr with
            | some v => acc ++ [v]
            | none => acc
          let nextStart := skipSep chunk (i + 1)
          scanLoop chunk fuel nextStart nextStart 0 inString escapeNext acc2
        else
          scanLoop chunk fuel (i + 1) startIdx (bracketCount - 1) inString escapeNext acc
      else
        scanLoop chunk fuel (i + 1) startIdx bracketCount inString escapeNext acc
    else (acc, startIdx)

/-- One chunk scan from the beginning with fresh scanner state, as the
source performs on every read iteration. -/
def scanChunk (chunk : List Char) (acc : List JVal) : List JVal × Nat :=
  scanLoop chunk (chunk.length + 1) 0 0 0 false false acc

/-- The read loop (lines 99-166): while position is below file size minus
one, read up to `bufLen` characters at the position, scan the leftover
plus the read characters, and carry the unconsumed tail. -/
def readLoop (file : List Char) (bufLen : Nat) :
    Nat → Nat → List Char → List JVal → List JVal
  | 0, _, _, acc => acc
  | fuel + 1, position, leftover, acc =>
    if position < file.length - 1 then
      let bytesRead := min bufLen (file.length - position)
      if bytesRead = 0 then acc
      else
        let chunk := leftover ++ (file.drop position).take bytesRead
        let res := scanChunk chunk acc
        readLoop file bufLen fuel (position + bytesRead) (chunk.drop res.2) res.1
    else acc

/-- `readJsonInChunks` over a file with a given read size: the sequence
of objects yielded. Reading starts one byte past the array start. -/
def readJsonInChunks (file : List Char) (bufLen : Nat) : List JVal :=
  readLoop file bufLen (file.length + 1) 1 [] []

/-! ## Redistribution grouping and the index artifact

split_translations.js lines 173-456. Documents stream out of the reader;
each is appended to `languageMap` under its language code and to
`versionMap` under the key `` `${language_code}_${translation_version ||
'default'}` ``; afterwards one artifact pair per version key is written
(lines 334-428) and the index artifact is built (lines 430-445). The
string manipulation (`startsWith`, `split('_')`) is modelled on
`List Char`. -/

/-- The fields of a streamed translation document that drive the
regrouping (split_translations.js line 189). A missing or null
`translation_version` is `none`; the empty string is a present but falsy
value. -/
structure TDoc where
  language_code : List Char
  translation_key : List Char
  translation_version : Option (List Char)
deriving DecidableEq

/-- The JS `translation_version || 'default'`: a missing, null or empty
version falls back to the string `default`. -/
def versionOrDefault (d : TDoc) : List Char :=
  match d.translation_version with
  | none => ("default").data
  | some v => if v = [] then ("default").data else v

/-- The version-map key `` `${language_code}_${translation_version ||
'default'}` `` (line 198). -/
def versionKey (d : TDoc) : List Char :=
  d.language_code ++ '_' :: versionOrDefault d

/-- The language map after the stream is consumed: documents grouped by
language code in first-occurrence order (lines 192-195). -/
def languageMap (docs : List TDoc) : List (List Char × List TDoc) :=
  groupByKey (fun d => d.language_code) docs

/-- The version map after the stream is consumed: documents grouped by
version key in first-occurrence order (lines 198-202). -/
def versionMap (docs : List TDoc) : List (List Char × List TDoc) :=
  groupByKey versionKey docs

/-- The JS `String.prototype.startsWith` on character lists. -/
def beginsWith : List Char → List Char → Bool
  | [], _ => true
  | _ :: _, [] => false
  | p :: ps, c :: cs => p = c && beginsWith ps cs

/-- The JS `String.prototype.split(sep)` on character lists (for a
one-character separator): `""` splits to `[""]`, a leading or trailing
separator produces an empty segment. -/
def splitChar (sep : Char) : List Char → List (List Char)
  | [] => [[]]
  | c :: rest =>
    if c = sep then [] :: splitChar sep rest
    else
      match splitChar sep rest with
      | [] => [[c]]
      | s :: ss => (c :: s) :: ss

/-- The JS `key.split('_')[1]` (line 438): the second underscore-separated
segment of a version key (`undefined` cannot occur because every version
key contains an underscore; the model returns the empty list if the
segment is absent). -/
def seg1 (k : List Char) : List Char :=
  (splitChar '_' k).getD 1 []

/-- One per-language entry of the index artifact (lines 433-439). -/
structure LangEntry where
  code : List Char
  translation_count : Nat
  versions : List (List Char)
deriving DecidableEq

/-- The index artifact `translations_index.json` (lines 431-440). -/
structure IndexData where
  total_translations : Nat
  languages : List LangEntry
deriving DecidableEq

/-- `indexData` (lines 431-440): the total number of documents consumed,
and per language key its group size and the list of second
underscore-separated segments of the version-map keys that start with
`` `${lang}_` ``. -/
def indexData (docs : List TDoc) : IndexData :=
  { total_translations := docs.length,
    languages := (languageMap docs).map (fun p =>
      { code := p.1,
        translation_count := p.2.length,
        versions :=
          (((versionMap docs).map Prod.fst).filter
            (fun k => beginsWith (p.1 ++ ['_']) k)).map seg1 }) }

/-- The artifact pair one version-map entry produces in the version-file
loop (lines 334-428): the language directory and file names come from
`versionKey.split('_')` (line 335), the contents are the entry's
documents. The JSON and CSV branches use the same directory and names
whether or not the directory pre-existed. -/
structure VersionFileEmit where
  dir : List Char
  jsonName : List Char
  csvName : List Char
  contents : List TDoc
deriving DecidableEq

/-- The version files written after the stream is consumed, one per
version-map entry in first-occurrence order. -/
def versionFileEmits (docs : List TDoc) : List VersionFileEmit :=
  (versionMap docs).map (fun p =>
    let parts := splitChar '_' p.1
    let language := parts.getD 0 []
    let version := parts.getD 1 []
    { dir := language,
      jsonName := ("version_").data ++ version ++ ("_translations.json").data,
      csvName := ("version_").data ++ version ++ ("_translations.csv").data,
      contents := p.2 })

/-! ## Concrete inputs used by counterexamples and witnesses -/

/-- A concrete source verse: surah 1, ayah 1. -/
def sampleAyah : SrcAyah :=
  { sura := 1, aya := 1, arabic_text := "bsm", translation := "in the name",
    footnotes := none }

/-- A per-surah outcome pattern under which every surah request throws,
so the fetch returns zero verses. -/
def emptyFetch : Nat → SurahOutcome SrcAyah :=
  fun _ => SurahOutcome.fetchError

/-- A per-surah outcome pattern with one verse in surah 1 and a malformed
response everywhere else. -/
def oneVerseFetch : Nat → SurahOutcome SrcAyah :=
  fun n => if n = 1 then SurahOutcome.ok [sampleAyah] else SurahOutcome.malformed

/-- A concrete catalog entry. -/
def sampleTrans : TransMeta :=
  { key := "ar_test", language_iso_code := "ar", title := "Test", version := "1.0" }

/-- The serialized text of the empty JSON document, exactly what
`JSON.stringify({}, null, 2)` produces. -/
def docC3 : List Char := ("{}").data

/-- The consolidated file of a fully completed run that flushed the two
documents `{}` and `{}` in one final flush. -/
def fileC3 : List Char := jsonFlushRun [[docC3, docC3]]

/-- A buffer of 21 serialized documents, the smallest size that triggers
a non-final JSON flush in `main` (buffer length > 20). -/
def bufferC2 : List (List Char) := List.replicate 21 (("{}").data)

/-- A hierarchical document whose single surah key has an empty ayah
list. -/
def docEmptySurah : TranslationDoc :=
  { translation_key := "k", language_code := "en", translation_title := "t",
    translation_version := "v", surahs := [(("1"), [])] }

/-- A hierarchical document with two surahs and string footnotes. -/
def docTwoSurahs : TranslationDoc :=
  { translation_key := "k", language_code := "en", translation_title := "t",
    translation_version := "v",
    surahs := [(("1"), [⟨1, "a", "ta", ""⟩, ⟨2, "b", "tb", "fb"⟩]),
               (("2"), [⟨1, "c", "tc", "fc"⟩])] }

/-- A streamed document whose version contains an underscore. -/
def tdocUnderscore : TDoc :=
  { language_code := ("en").data, translation_key := ("k1").data,
    translation_version := some (("1_0").data) }

/-- A streamed document with a null version. -/
def tdocDefault : TDoc :=
  { language_code := ("en").data, translation_key := ("k1").data,
    translation_version := none }

/-- A concrete document stream: two English documents with versions 1.0
and 2.0 and one Arabic document with an empty version. -/
def tdocsC9 : List TDoc :=
  [{ language_code := ("en").data, translation_key := ("k1").data,
     translation_version := some (("1.0").data) },
   { language_code := ("en").data, translation_key := ("k2").data,
     translation_version := some (("2.0").data) },
   { language_code := ("ar").data, translation_key := ("k3").data,
     translation_version := some ([]) }]

/-! # Theorems -/

/-- C1: refuted on the code (code bug). The `parallelCorpus` rows, the
`enhancedData` rows and the hierarchical document's ayah entries all read
`ayah.aya` from `processedData` rows, which carry the verse number under
the key `ayah` and have no key `aya`; so for a verse with `aya = 1` the
derived records' `ayah` field is `undefined` (an empty CSV cell, an
omitted JSON key), not the verse number. -/
theorem c1_ayah_field_is_undefined :
    jget (parallelCorpusRow (processedRow sampleAyah)) ("ayah") = JsVal.undef ∧
    jget (enhancedRow ("ar_test") ("ar") ("Test") ("1.0") (processedRow sampleAyah))
      ("ayah") = JsVal.undef ∧
    jget (jsonAyahEntry (processedRow sampleAyah)) ("ayah") = JsVal.undef ∧
    sampleAyah.aya = 1 ∧
    csvFieldOfJs (jget (parallelCorpusRow (processedRow sampleAyah)) ("ayah")) = "" ∧
    JsVal.undef ≠ JsVal.vnum 1 := by
  decide

/-- C2: refuted on the code (code bug). In a run whose final JSON flush
has an empty buffer (reachable: 21 documents flushed mid-run because the
buffer exceeded 20, then the last translation contributes nothing),
`saveJsonData` returns before appending the array end, so the completed
run's file opens the array once but never closes it: invalid JSON array
text. -/
theorem c2_final_empty_flush_leaves_array_unterminated :
    (jsonFlushRun [bufferC2, []]).count '[' = 1 ∧
    (jsonFlushRun [bufferC2, []]).count ']' = 0 := by
  decide

/-- C3: refuted on the code (code bug). Writing the two documents `{}`
and `{}` in one final flush yields the file text `[\n{},\n{}\n]`; reading
it back with read-chunk size 1 makes a chunk boundary fall exactly on the
first document's closing brace, so the separating comma is carried into
the next candidate substring, `JSON.parse` fails on `,\n{}` and the
second document is dropped: the reader yields one document, not two
(reading the whole file in one chunk yields both). -/
theorem c3_reader_drops_document_after_chunk_boundary :
    fileC3 = ("[\n{},\n{}\n]").data ∧
    (readJsonInChunks fileC3 1).length = 1 ∧
    (readJsonInChunks fileC3 1).all jvalIsEmptyObj = true ∧
    (readJsonInChunks fileC3 fileC3.length).length = 2 := by
  decide

/-- C4: counterexample. For a translation whose fetch returns zero
verses, `processTranslation` does return a null result, but it has
already written `metadata.json` (the write precedes the fetch), so "no
artifacts (no metadata)" is false. -/
theorem c4_metadata_written_for_zero_verse_translation :
    (processTranslation sampleTrans emptyFetch).2 = none ∧
    Artifact.metadataJson ∈ (processTranslation sampleTrans emptyFetch).1 := by
  decide

/-- C5: counterexample. In a run where every translation contributes zero
records, the only flush is the final one with an empty buffer and the
first-chunk flag set; `saveChunkedData` returns without writing, so the
run performs no writes at all and in particular writes the header zero
times, not exactly once. -/
theorem c5_all_empty_run_writes_no_header :
    csvFlushRun [([] : List Nat)] = [] ∧
    headerCount (csvFlushRun [([] : List Nat)]) ≠ 1 := by
  decide

/-- C7: counterexample. A document whose surah key has an empty ayah list
flattens to no rows, so re-grouping the flattened rows yields no groups
and the surah key is lost: the reconstructed mapping differs from the
original. -/
theorem c7_empty_ayah_list_loses_surah_key :
    regroupBySurah (flattenTranslationForCSV docEmptySurah) = [] ∧
    docEmptySurah.surahs ≠ [] := by
  decide

/-- C9: counterexample. For one English document with version `1_0`, the
index records the version list `["1"]` — `key.split('_')[1]` keeps only
the segment before the version's own underscore — not the observed
version set `{"1_0"}`. -/
theorem c9_underscore_version_truncated_in_index :
    (indexData [tdocUnderscore]).languages =
      [{ code := ("en").data, translation_count := 1, versions := [("1").data] }] ∧
    versionOrDefault tdocUnderscore = ("1_0").data ∧
    (("1").data : List Char) ≠ ("1_0").data := by
  decide

/-! ### Lemmas about the CSV field encoder (for C6) -/

theorem unDoubleQuotes_two (l : List Char) :
    unDoubleQuotes ('"' :: '"' :: l) = '"' :: unDoubleQuotes l := rfl

theorem unDoubleQuotes_cons_ne (c : Char) (l : List Char) (h : ¬ c = '"') :
    unDoubleQuotes (c :: l) = c :: unDoubleQuotes l := by
  cases l with
  | nil =>
    rw [unDoubleQuotes.eq_def]
    split <;> simp_all
  | cons d t =>
    rw [unDoubleQuotes.eq_def]
    split <;> simp_all

theorem unDoubleQuotes_doubleQuotes (v : List Char) :
    unDoubleQuotes (doubleQuotesCh v) = v := by
  induction v with
  | nil => rfl
  | cons c rest ih =>
    by_cases h : c = '"'
    · subst h
      have hd : doubleQuotesCh ('"' :: rest) = '"' :: '"' :: doubleQuotesCh rest := by
        simp [doubleQuotesCh]
      rw [hd, unDoubleQuotes_two, ih]
    · simp only [doubleQuotesCh, if_neg h]
      rw [unDoubleQuotes_cons_ne c _ h, ih]

theorem contains_of_head (c : Char) (t : List Char) :
    (c :: t).contains c = true := by
  simp [List.contains_cons]

/-- C6: confirmed. The encoder wraps a field in quotes with internal
quotes doubled exactly when it contains a comma, newline or quote
(otherwise the field is written bare), and the standard CSV decoding rule
recovers the original string from the encoded field; in particular the
field `a,b"c\nd` round-trips to itself. -/
theorem c6_csv_field_encode_decode_roundtrip :
    (∀ v : List Char,
      decodeCSVField (csvEscapeField v) = v ∧
      ((csvEscapeField v).head? = some '"' ↔ needsQuoting v = true) ∧
      (needsQuoting v = false → csvEscapeField v = v)) ∧
    decodeCSVField (csvEscapeField (("a,b\"c\nd").data)) = ("a,b\"c\nd").data := by
  constructor
  · intro v
    by_cases hq : needsQuoting v = true
    · -- quoted case
      have henc : csvEscapeField v = '"' :: (doubleQuotesCh v ++ ['"']) := by
        simp [csvEscapeField, hq]
      refine ⟨?_, ?_, ?_⟩
      · rw [henc]
        have hcond : 2 ≤ ('"' :: (doubleQuotesCh v ++ ['"'])).length ∧
            ('"' :: (doubleQuotesCh v ++ ['"'])).head? = some '"' ∧
            ('"' :: (doubleQuotesCh v ++ ['"'])).getLast? = some '"' := by
          refine ⟨?_, rfl, ?_⟩
          · simp
          · rw [show ('"' :: (doubleQuotesCh v ++ ['"'])) =
                ('"' :: doubleQuotesCh v) ++ ['"'] by simp]
            exact List.getLast?_concat _
        rw [decodeCSVField, if_pos hcond]
        simp only [List.drop_succ_cons, List.drop_zero]
        rw [List.dropLast_concat]
        exact unDoubleQuotes_doubleQuotes v
      · rw [henc]
        simp [hq]
      · intro hf
        rw [hf] at hq
        cases hq
    · -- bare case
      have hq' : needsQuoting v = false := by
        cases hnq : needsQuoting v
        · rfl
        · exact absurd hnq hq
      have henc : csvEscapeField v = v := by
        simp [csvEscapeField, hq']
      refine ⟨?_, ?_, fun _ => henc⟩
      · rw [henc]
        cases v with
        | nil => rfl
        | cons c t =>
          have hc : ¬ c = '"' := by
            intro hcq
            subst hcq
            have : (('"' :: t).contains '"') = true := contains_of_head _ _
            rw [needsQuoting] at hq'
            simp [this] at hq'
          rw [decodeCSVField]
          rw [if_neg ?_]
          intro hcond
          exact hc (Option.some.inj hcond.2.1)
      · rw [henc]
        constructor
        · intro hh
          exfalso
          cases v with
          | nil => cases hh
          | cons c t =>
            have hc : c = '"' := Option.some.inj hh
            subst hc
            have : (('"' :: t).contains '"') = true := contains_of_head _ _
            rw [needsQuoting] at hq'
            simp [this] at hq'
        · intro hh
          exact absurd hh hq
  · decide

/-! ### Lemmas for the verse fetcher (C8) -/

theorem foldl_append_map {α β : Type} (g : β → List α) (l : List β) :
    ∀ acc : List α, l.foldl (fun a x => a ++ g x) acc = acc ++ (l.map g).flatten := by
  induction l with
  | nil => intro acc; simp
  | cons x xs ih => intro acc; simp [ih, List.append_assoc]

/-- C8: confirmed. The verse fetcher is a total function of the per-surah
outcomes (the catch block swallows every per-surah failure, so no
exception escapes the loop); it visits the surah numbers 1..114 in
ascending order, a malformed response or a fetch error contributes zero
verses, and the result is the concatenation of the successfully fetched
surahs' verse lists in ascending surah order, each list in source
order. -/
theorem c8_fetch_concatenates_successful_surahs_in_order {α : Type}
    (outcome : Nat → SurahOutcome α) :
    getTranslationForAllSurahs outcome =
      ((List.range' 1 114).map (fun n => surahContribution (outcome n))).flatten ∧
    surahContribution (SurahOutcome.malformed : SurahOutcome α) = [] ∧
    surahContribution (SurahOutcome.fetchError : SurahOutcome α) = [] := by
  refine ⟨?_, rfl, rfl⟩
  have hfun : (fun (acc : List α) n =>
      match outcome n with
      | SurahOutcome.ok result => acc ++ result
      | SurahOutcome.malformed => acc
      | SurahOutcome.fetchError => acc) =
      fun (acc : List α) n => acc ++ surahContribution (outcome n) := by
    funext acc n
    cases outcome n <;> simp [surahContribution]
  rw [getTranslationForAllSurahs, hfun, foldl_append_map]
  simp

/-! ### Lemmas about chunked CSV writing (for C5) -/

theorem chunksOfAux_cons {α : Type} (cs fuel : Nat) (x : α) (xs : List α) :
    chunksOfAux cs (fuel + 1) (x :: xs) =
      (x :: xs).take cs :: chunksOfAux cs fuel ((x :: xs).drop cs) := rfl

theorem chunksOfAux_flatten {α : Type} (cs : Nat) (hcs : 1 ≤ cs) :
    ∀ (fuel : Nat) (l : List α), l.length ≤ fuel → (chunksOfAux cs fuel l).flatten = l := by
  intro fuel
  induction fuel with
  | zero =>
    intro l hl
    have : l = [] := List.length_eq_zero.mp (Nat.le_zero.mp hl)
    subst this
    rfl
  | succ n ih =>
    intro l hl
    cases l with
    | nil => rfl
    | cons x xs =>
      rw [chunksOfAux_cons, List.flatten_cons, ih ((x :: xs).drop cs) ?_,
        List.take_append_drop]
      have hlen : ((x :: xs).drop cs).length = (x :: xs).length - cs := by
        simp
      rw [hlen]
      simp only [List.length_cons] at hl ⊢
      omega

theorem chunksOf_flatten {α : Type} (cs : Nat) (hcs : 1 ≤ cs) (l : List α) :
    (chunksOf cs l).flatten = l :=
  chunksOfAux_flatten cs hcs l.length l le_rfl

theorem chunksOfAux_mem_length {α : Type} (cs : Nat) :
    ∀ (fuel : Nat) (l : List α), ∀ w ∈ chunksOfAux cs fuel l, w.length ≤ cs := by
  intro fuel
  induction fuel with
  | zero =>
    intro l w hw
    cases l with
    | nil =>
      rw [show chunksOfAux cs 0 ([] : List α) = [] from rfl] at hw
      cases hw
    | cons x xs =>
      rw [show chunksOfAux cs 0 (x :: xs) = [] from rfl] at hw
      cases hw
  | succ n ih =>
    intro l w hw
    cases l with
    | nil =>
      rw [show chunksOfAux cs (n + 1) ([] : List α) = [] from rfl] at hw
      cases hw
    | cons x xs =>
      rw [chunksOfAux_cons] at hw
      rcases List.mem_cons.mp hw with hw | hw
      · subst hw
        rw [List.length_take]
        exact Nat.min_le_left _ _
      · exact ih _ w hw

theorem headerCount_append {α : Type} (a b : List (CsvWrite α)) :
    headerCount (a ++ b) = headerCount a + headerCount b :=
  List.countP_append _ _ _

theorem headerCount_data_map {α : Type} (chunks : List (List α)) :
    headerCount (chunks.map CsvWrite.data) = 0 := by
  rw [headerCount, List.countP_eq_zero]
  intro w hw
  rcases List.mem_map.mp hw with ⟨rs, _, hrs⟩
  subst hrs
  simp

theorem headerCount_saveChunkedData_false {α : Type} (b : List α) (cs : Nat) :
    headerCount (saveChunkedData b cs false) = 0 := by
  rw [saveChunkedData]
  by_cases hb : b.length = 0
  · rw [if_pos hb]
    rfl
  · rw [if_neg hb]
    exact headerCount_data_map (chunksOf cs b)

theorem headerCount_saveChunkedData_true {α : Type} (b : List α) (cs : Nat)
    (hb : b ≠ []) :
    headerCount (saveChunkedData b cs true) = 1 := by
  rw [saveChunkedData, if_neg (fun h => hb (List.length_eq_zero.mp h))]
  simp only [if_pos rfl]
  rw [headerCount_append, headerCount_data_map]
  rfl

theorem dataRowCount_append {α : Type} (a b : List (CsvWrite α)) :
    dataRowCount (a ++ b) = dataRowCount a + dataRowCount b := by
  rw [dataRowCount, dataRowCount, dataRowCount, List.map_append, List.sum_append]

theorem dataRowCount_data_map {α : Type} (chunks : List (List α)) :
    dataRowCount (chunks.map CsvWrite.data) = (chunks.map List.length).sum := by
  rw [dataRowCount, List.map_map]
  rfl

theorem dataRowCount_saveChunkedData {α : Type} (b : List α) (fir : Bool) :
    dataRowCount (saveChunkedData b 1000 fir) = b.length := by
  rw [saveChunkedData]
  by_cases hb : b.length = 0
  · rw [if_pos hb, hb]
    rfl
  · rw [if_neg hb, dataRowCount_append, dataRowCount_data_map]
    have hsum : ((chunksOf 1000 b).map List.length).sum = b.length := by
      rw [← List.length_flatten, chunksOf_flatten 1000 (by omega) b]
    rw [hsum]
    have hz : dataRowCount
        (if fir = true then ([CsvWrite.header] : List (CsvWrite α)) else []) = 0 := by
      cases fir
      · rfl
      · rfl
    rw [hz, Nat.zero_add]

theorem headerCount_csvFlushRunAux_false {α : Type} (flushes : List (List α)) :
    headerCount (csvFlushRunAux flushes false) = 0 := by
  induction flushes with
  | nil => rfl
  | cons b rest ih =>
    rw [csvFlushRunAux, headerCount_append, headerCount_saveChunkedData_false, ih]

theorem dataRowCount_csvFlushRunAux {α : Type} (flushes : List (List α)) :
    ∀ fir : Bool, dataRowCount (csvFlushRunAux flushes fir) =
      (flushes.map List.length).sum := by
  induction flushes with
  | nil => intro fir; rfl
  | cons b rest ih =>
    intro fir
    rw [csvFlushRunAux, dataRowCount_append, dataRowCount_saveChunkedData, ih]
    simp

theorem mem_saveChunkedData_data_length {α : Type} (b : List α) (fir : Bool)
    (w : CsvWrite α) (hw : w ∈ saveChunkedData b 1000 fir) (rs : List α)
    (hrs : w = CsvWrite.data rs) : rs.length ≤ 1000 := by
  rw [saveChunkedData] at hw
  by_cases hb : b.length = 0
  · rw [if_pos hb] at hw
    cases hw
  · rw [if_neg hb] at hw
    rcases List.mem_append.mp hw with hw | hw
    · cases fir
      · cases hw
      · rcases List.mem_singleton.mp hw with h
        subst hrs
        cases h
    · rcases List.mem_map.mp hw with ⟨chunk, hchunk, hcw⟩
      subst hrs
      cases hcw
      exact chunksOfAux_mem_length 1000 b.length b _ hchunk

theorem mem_csvFlushRunAux_data_length {α : Type} (flushes : List (List α)) :
    ∀ (fir : Bool) (w : CsvWrite α), w ∈ csvFlushRunAux flushes fir →
      ∀ rs, w = CsvWrite.data rs → rs.length ≤ 1000 := by
  induction flushes with
  | nil => intro fir w hw; cases hw
  | cons b rest ih =>
    intro fir w hw rs hrs
    rw [csvFlushRunAux] at hw
    rcases List.mem_append.mp hw with hw | hw
    · exact mem_saveChunkedData_data_length b fir w hw rs hrs
    · exact ih false w hw rs hrs

/-- C5 (amended): when the first flushed buffer is non-empty — which in a
full run is equivalent to some flush being non-empty, since only the
final flush can have an empty buffer — the run writes the header exactly
once, the total number of data rows written equals the sum of the flushed
buffers' record counts, and every data write is a sub-chunk of at most
1000 rows. -/
theorem c5_header_once_rows_sum_chunks_bounded {α : Type} (b0 : List α)
    (rest : List (List α)) (hne : b0 ≠ []) :
    headerCount (csvFlushRun (b0 :: rest)) = 1 ∧
    dataRowCount (csvFlushRun (b0 :: rest)) = ((b0 :: rest).map List.length).sum ∧
    ∀ w ∈ csvFlushRun (b0 :: rest), ∀ rs, w = CsvWrite.data rs →
      rs.length ≤ 1000 := by
  refine ⟨?_, ?_, ?_⟩
  · rw [csvFlushRun, csvFlushRunAux, headerCount_append,
      headerCount_saveChunkedData_true b0 1000 hne, headerCount_csvFlushRunAux_false]
  · rw [csvFlushRun]
    exact dataRowCount_csvFlushRunAux (b0 :: rest) true
  · intro w hw rs hrs
    exact mem_csvFlushRunAux_data_length (b0 :: rest) true w hw rs hrs

/-- C5 witness: the amended statement applied to the concrete run that
flushes the buffer `[1]` first and then the buffer `[2, 3]`. -/
theorem c5_witness :
    headerCount (csvFlushRun [[(1 : Nat)], [2, 3]]) = 1 ∧
    dataRowCount (csvFlushRun [[(1 : Nat)], [2, 3]]) =
      (([[(1 : Nat)], [2, 3]]).map List.length).sum ∧
    ∀ w ∈ csvFlushRun [[(1 : Nat)], [2, 3]], ∀ rs, w = CsvWrite.data rs →
      rs.length ≤ 1000 :=
  c5_header_once_rows_sum_chunks_bounded [1] [[2, 3]] (by decide)

/-- C4 (amended): for a translation whose fetch returns zero verses,
`processTranslation` performs exactly the `metadata.json` write (which
precedes the fetch) and no CSV write, returns a null result, and the main
loop counts it as one more error and continues with the remaining
translations. -/
theorem c4_zero_verses_no_csv_null_result_run_continues
    (t : TransMeta) (outcome : Nat → SurahOutcome SrcAyah)
    (h : getTranslationForAllSurahs outcome = ([] : List SrcAyah))
    (s e : Nat) (rest : List (TransMeta × (Nat → SurahOutcome SrcAyah))) :
    processTranslation t outcome = ([Artifact.metadataJson], none) ∧
    mainLoopFrom (s, e) ((t, outcome) :: rest) = mainLoopFrom (s, e + 1) rest := by
  have hp : processTranslation t outcome = ([Artifact.metadataJson], none) := by
    rw [processTranslation]
    simp [h]
  refine ⟨hp, ?_⟩
  rw [mainLoopFrom, hp]

/-- C4 witness: the amended statement applied to a concrete translation
all of whose surah requests fail. -/
theorem c4_witness :
    processTranslation sampleTrans emptyFetch = ([Artifact.metadataJson], none) ∧
    mainLoopFrom (0, 0) [(sampleTrans, emptyFetch)] = mainLoopFrom (0, 1) [] :=
  c4_zero_verses_no_csv_null_result_run_continues sampleTrans emptyFetch
    (by decide) 0 0 []

/-! ### Lemmas about grouping keyed segments (for C7) -/

theorem insertGrouped_fresh {κ β : Type} [DecidableEq κ] (k : κ) (b : β) :
    ∀ acc : List (κ × List β), k ∉ acc.map Prod.fst →
      insertGrouped acc k b = acc ++ [(k, [b])] := by
  intro acc
  induction acc with
  | nil => intro h; rfl
  | cons p rest ih =>
    intro h
    rw [List.map_cons, List.mem_cons, not_or] at h
    have hp : ¬ p.1 = k := fun he => h.1 he.symm
    show (if p.1 = k then (p.1, p.2 ++ [b]) :: rest else p :: insertGrouped rest k b) =
      (p :: rest) ++ [(k, [b])]
    rw [if_neg hp, ih h.2]
    rfl

theorem insertGrouped_extend_last {κ β : Type} [DecidableEq κ] (k : κ) (es : List β)
    (b : β) :
    ∀ acc : List (κ × List β), k ∉ acc.map Prod.fst →
      insertGrouped (acc ++ [(k, es)]) k b = acc ++ [(k, es ++ [b])] := by
  intro acc
  induction acc with
  | nil =>
    intro h
    show (if k = k then (k, es ++ [b]) :: ([] : List (κ × List β))
      else (k, es) :: insertGrouped [] k b) = [(k, es ++ [b])]
    rw [if_pos rfl]
  | cons p rest ih =>
    intro h
    rw [List.map_cons, List.mem_cons, not_or] at h
    have hp : ¬ p.1 = k := fun he => h.1 he.symm
    show (if p.1 = k then (p.1, p.2 ++ [b]) :: (rest ++ [(k, es)])
      else p :: insertGrouped (rest ++ [(k, es)]) k b) = (p :: rest) ++ [(k, es ++ [b])]
    rw [if_neg hp, ih h.2]
    rfl

theorem foldl_insert_segment {κ β : Type} [DecidableEq κ] (f : β → κ) (k : κ) :
    ∀ (bs : List β) (acc : List (κ × List β)) (es : List β),
      k ∉ acc.map Prod.fst → (∀ b ∈ bs, f b = k) →
      bs.foldl (fun a b => insertGrouped a (f b) b) (acc ++ [(k, es)]) =
        acc ++ [(k, es ++ bs)] := by
  intro bs
  induction bs with
  | nil => intro acc es h _; simp
  | cons b bs ih =>
    intro acc es h hf
    rw [List.foldl_cons, hf b (List.mem_cons_self b bs),
      insertGrouped_extend_last k es b acc h,
      ih acc (es ++ [b]) h (fun x hx => hf x (List.mem_cons_of_mem b hx)),
      List.append_assoc es [b] bs]
    rfl

theorem foldl_insert_segments {κ β : Type} [DecidableEq κ] (f : β → κ) :
    ∀ (segs : List (κ × List β)) (acc : List (κ × List β)),
      (∀ p ∈ segs, p.1 ∉ acc.map Prod.fst) →
      (segs.map Prod.fst).Nodup →
      (∀ p ∈ segs, p.2 ≠ []) →
      (∀ p ∈ segs, ∀ b ∈ p.2, f b = p.1) →
      (segs.flatMap Prod.snd).foldl (fun a b => insertGrouped a (f b) b) acc =
        acc ++ segs := by
  intro segs
  induction segs with
  | nil => intro acc _ _ _ _; simp
  | cons p rest ih =>
    intro acc hdisj hnd hne hf
    rcases p with ⟨k, bs⟩
    cases bs with
    | nil => exact absurd rfl (hne (k, []) (List.mem_cons_self _ _))
    | cons b0 bs' =>
      rw [List.flatMap_cons, List.foldl_append, List.foldl_cons,
        hf (k, b0 :: bs') (List.mem_cons_self _ _) b0 (List.mem_cons_self b0 bs')]
      have hkacc : k ∉ acc.map Prod.fst := hdisj (k, b0 :: bs') (List.mem_cons_self _ _)
      rw [insertGrouped_fresh k b0 acc hkacc,
        foldl_insert_segment f k bs' acc [b0] hkacc
          (fun x hx => hf (k, b0 :: bs') (List.mem_cons_self _ _) x
            (List.mem_cons_of_mem b0 hx))]
      rw [List.map_cons, List.nodup_cons] at hnd
      have hstep := ih (acc ++ [(k, [b0] ++ bs')])
        (fun q hq => by
          rw [List.map_append, List.mem_append, not_or]
          refine ⟨hdisj q (List.mem_cons_of_mem _ hq), ?_⟩
          intro hqk
          rcases List.mem_singleton.mp hqk with hqk
          exact hnd.1 (hqk ▸ List.mem_map_of_mem Prod.fst hq))
        hnd.2
        (fun q hq => hne q (List.mem_cons_of_mem _ hq))
        (fun q hq => hf q (List.mem_cons_of_mem _ hq))
      rw [hstep, List.append_assoc]
      rfl

theorem ite_beq_empty (fo : String) : (if fo == "" then "" else fo) = fo := by
  by_cases hf : fo = ""
  · subst hf; rfl
  · simp [hf]

theorem entryOfRow_rowOf (t : TranslationDoc) (k : String) (a : AyahEntry) :
    entryOfRow (rowOf t k a) = a := by
  rcases a with ⟨ay, ar, tr, fo⟩
  simp only [entryOfRow, rowOf]
  rw [ite_beq_empty]

/-- C7 (amended): for every hierarchical document whose surah keys are
distinct (a JS object cannot repeat a key) and whose every surah has a
non-empty ayah list, flattening and then re-grouping the rows by their
surah value reconstructs the surah-to-ayah-list mapping exactly: the same
keys in the same order, each with the same entries in the same order. -/
theorem c7_flatten_regroup_roundtrip (t : TranslationDoc)
    (hnd : (t.surahs.map Prod.fst).Nodup)
    (hne : ∀ p ∈ t.surahs, p.2 ≠ []) :
    regroupBySurah (flattenTranslationForCSV t) = t.surahs := by
  have hflat : flattenTranslationForCSV t =
      (t.surahs.map (fun p => (p.1, p.2.map (rowOf t p.1)))).flatMap Prod.snd := by
    rw [flattenTranslationForCSV, List.flatMap_map]
  have hkeys : ((t.surahs.map (fun p => (p.1, p.2.map (rowOf t p.1)))).map
      Prod.fst).Nodup := by
    rw [List.map_map]
    exact hnd
  have hgroup : groupByKey (fun r => r.surah)
      ((t.surahs.map (fun p => (p.1, p.2.map (rowOf t p.1)))).flatMap Prod.snd) =
      t.surahs.map (fun p => (p.1, p.2.map (rowOf t p.1))) := by
    rw [groupByKey]
    refine foldl_insert_segments (fun r => r.surah) _ [] ?_ hkeys ?_ ?_
    · intro p hp
      simp
    · intro p hp
      rcases List.mem_map.mp hp with ⟨q, hq, hpq⟩
      subst hpq
      intro hmap
      exact hne q hq (List.map_eq_nil_iff.mp hmap)
    · intro p hp b hb
      rcases List.mem_map.mp hp with ⟨q, hq, hpq⟩
      subst hpq
      rcases List.mem_map.mp hb with ⟨a, ha, hab⟩
      subst hab
      rfl
  rw [regroupBySurah, hflat, hgroup, List.map_map]
  have hid : ∀ l : List (String × List AyahEntry),
      l.map ((fun p : String × List FlatRow => (p.1, p.2.map entryOfRow)) ∘
        (fun p : String × List AyahEntry => (p.1, p.2.map (rowOf t p.1)))) = l := by
    intro l
    induction l with
    | nil => rfl
    | cons p rest ihl =>
      rw [List.map_cons, ihl]
      rcases p with ⟨k, entries⟩
      simp only [Function.comp_apply, List.map_map]
      congr 1
      congr 1
      have : (entryOfRow ∘ rowOf t k) = id := by
        funext a
        exact entryOfRow_rowOf t k a
      rw [this, List.map_id]
  exact hid t.surahs

/-- C7 witness: the amended statement applied to a concrete two-surah
document with string footnotes. -/
theorem c7_witness :
    regroupBySurah (flattenTranslationForCSV docTwoSurahs) = docTwoSurahs.surahs :=
  c7_flatten_regroup_roundtrip docTwoSurahs (by decide)
    (by intro p hp; fin_cases hp <;> decide)

/-! ### Invariants of grouping by key (for C9 and C10) -/

theorem insertGrouped_keys_mem {κ β : Type} [DecidableEq κ] (k : κ) (b : β) :
    ∀ acc : List (κ × List β), k ∈ acc.map Prod.fst →
      (insertGrouped acc k b).map Prod.fst = acc.map Prod.fst := by
  intro acc
  induction acc with
  | nil => intro h; cases h
  | cons p rest ih =>
    intro h
    by_cases hp : p.1 = k
    · show ((if p.1 = k then (p.1, p.2 ++ [b]) :: rest
        else p :: insertGrouped rest k b).map Prod.fst) = _
      rw [if_pos hp]
      rfl
    · show ((if p.1 = k then (p.1, p.2 ++ [b]) :: rest
        else p :: insertGrouped rest k b).map Prod.fst) = _
      rw [if_neg hp, List.map_cons, List.map_cons]
      rw [List.map_cons, List.mem_cons] at h
      rcases h with h | h
      · exact absurd h.symm hp
      · rw [ih h]

theorem insertGrouped_nodup {κ β : Type} [DecidableEq κ] (k : κ) (b : β)
    (acc : List (κ × List β)) (hnd : (acc.map Prod.fst).Nodup) :
    ((insertGrouped acc k b).map Prod.fst).Nodup := by
  by_cases hk : k ∈ acc.map Prod.fst
  · rw [insertGrouped_keys_mem k b acc hk]
    exact hnd
  · rw [insertGrouped_fresh k b acc hk, List.map_append, List.nodup_append]
    refine ⟨hnd, by simp, ?_⟩
    intro a ha ha2
    have hak : a = k := by simpa using ha2
    exact hk (hak ▸ ha)

theorem insertGrouped_mem_keys {κ β : Type} [DecidableEq κ] (k k' : κ) (b : β)
    (acc : List (κ × List β)) :
    k' ∈ (insertGrouped acc k b).map Prod.fst ↔ k' ∈ acc.map Prod.fst ∨ k' = k := by
  by_cases hk : k ∈ acc.map Prod.fst
  · rw [insertGrouped_keys_mem k b acc hk]
    constructor
    · exact Or.inl
    · intro h
      rcases h with h | h
      · exact h
      · exact h ▸ hk
  · rw [insertGrouped_fresh k b acc hk, List.map_append, List.mem_append]
    simp

theorem insertGrouped_groups {κ β : Type} [DecidableEq κ] (f : β → κ) (b : β)
    (pr : List β) :
    ∀ acc : List (κ × List β),
      (acc.map Prod.fst).Nodup →
      (∀ p ∈ acc, p.2 = pr.filter (fun x => decide (f x = p.1))) →
      (f b ∉ acc.map Prod.fst → pr.filter (fun x => decide (f x = f b)) = []) →
      ∀ p ∈ insertGrouped acc (f b) b,
        p.2 = (pr ++ [b]).filter (fun x => decide (f x = p.1)) := by
  intro acc
  induction acc with
  | nil =>
    intro _ _ hfresh p hp
    rw [show insertGrouped ([] : List (κ × List β)) (f b) b = [(f b, [b])] from rfl] at hp
    rcases List.mem_singleton.mp hp with hp
    subst hp
    rw [List.filter_append, hfresh (by simp)]
    simp
  | cons q rest ih =>
    intro hnd h2 hfresh p hp
    rw [List.map_cons, List.nodup_cons] at hnd
    by_cases hq : q.1 = f b
    · rw [show insertGrouped (q :: rest) (f b) b =
        if q.1 = f b then (q.1, q.2 ++ [b]) :: rest
        else q :: insertGrouped rest (f b) b from rfl, if_pos hq] at hp
      rcases List.mem_cons.mp hp with hp | hp
      · subst hp
        rw [List.filter_append, ← h2 q (List.mem_cons_self _ _)]
        simp [hq]
      · rw [List.filter_append]
        have hp1 : ¬ (f b = p.1) := by
          intro he
          exact hnd.1 (by
            rw [hq, he]
            exact List.mem_map_of_mem Prod.fst hp)
        rw [h2 p (List.mem_cons_of_mem _ hp)]
        simp [hp1]
    · rw [show insertGrouped (q :: rest) (f b) b =
        if q.1 = f b then (q.1, q.2 ++ [b]) :: rest
        else q :: insertGrouped rest (f b) b from rfl, if_neg hq] at hp
      rcases List.mem_cons.mp hp with hp | hp
      · rw [hp, List.filter_append, ← h2 q (List.mem_cons_self _ _)]
        have hq' : ¬ (f b = q.1) := fun he => hq he.symm
        simp [hq']
      · refine ih hnd.2 (fun r hr => h2 r (List.mem_cons_of_mem _ hr)) ?_ p hp
        intro hnb
        refine hfresh ?_
        rw [List.map_cons, List.mem_cons, not_or]
        exact ⟨fun he => hq he.symm, hnb⟩

theorem groupByKey_foldl_inv {κ β : Type} [DecidableEq κ] (f : β → κ) :
    ∀ (xs : List β) (acc : List (κ × List β)) (pr : List β),
      (acc.map Prod.fst).Nodup →
      (∀ p ∈ acc, p.2 = pr.filter (fun x => decide (f x = p.1))) →
      (∀ k, k ∈ acc.map Prod.fst ↔ k ∈ pr.map f) →
      ((xs.foldl (fun a b => insertGrouped a (f b) b) acc).map Prod.fst).Nodup ∧
      (∀ p ∈ xs.foldl (fun a b => insertGrouped a (f b) b) acc,
        p.2 = (pr ++ xs).filter (fun x => decide (f x = p.1))) ∧
      (∀ k, k ∈ (xs.foldl (fun a b => insertGrouped a (f b) b) acc).map Prod.fst ↔
        k ∈ (pr ++ xs).map f) := by
  intro xs
  induction xs with
  | nil =>
    intro acc pr h1 h2 h3
    refine ⟨h1, ?_, ?_⟩
    · rw [List.append_nil]
      exact h2
    · rw [List.append_nil]
      exact h3
  | cons b xs ih =>
    intro acc pr h1 h2 h3
    rw [List.foldl_cons]
    have hfresh : f b ∉ acc.map Prod.fst →
        pr.filter (fun x => decide (f x = f b)) = [] := by
      intro hnb
      rw [List.filter_eq_nil_iff]
      intro a ha hpa
      have hfa : f a = f b := of_decide_eq_true hpa
      exact hnb ((h3 (f b)).mpr (hfa ▸ List.mem_map_of_mem f ha))
    have h1' := insertGrouped_nodup (f b) b acc h1
    have h2' := insertGrouped_groups f b pr acc h1 h2 hfresh
    have h3' : ∀ k, k ∈ (insertGrouped acc (f b) b).map Prod.fst ↔
        k ∈ (pr ++ [b]).map f := by
      intro k
      rw [insertGrouped_mem_keys (f b) k b acc, List.map_append, List.mem_append, h3]
      simp
    have hres := ih (insertGrouped acc (f b) b) (pr ++ [b]) h1' h2' h3'
    rw [List.append_assoc, List.singleton_append] at hres
    exact hres

theorem groupByKey_keys_nodup {κ β : Type} [DecidableEq κ] (f : β → κ)
    (xs : List β) : ((groupByKey f xs).map Prod.fst).Nodup := by
  rw [groupByKey]
  exact (groupByKey_foldl_inv f xs [] [] (by simp) (by simp) (by simp)).1

theorem groupByKey_mem_keys {κ β : Type} [DecidableEq κ] (f : β → κ)
    (xs : List β) (k : κ) :
    k ∈ (groupByKey f xs).map Prod.fst ↔ k ∈ xs.map f := by
  rw [groupByKey]
  have h := (groupByKey_foldl_inv f xs [] [] (by simp) (by simp) (by simp)).2.2 k
  rw [List.nil_append] at h
  exact h

theorem groupByKey_groups {κ β : Type} [DecidableEq κ] (f : β → κ)
    (xs : List β) :
    ∀ p ∈ groupByKey f xs, p.2 = xs.filter (fun x => decide (f x = p.1)) := by
  rw [groupByKey]
  have h := (groupByKey_foldl_inv f xs [] [] (by simp) (by simp) (by simp)).2.1
  rw [List.nil_append] at h
  exact h

/-! ### Character-list lemmas for version keys (for C9 and C10) -/

theorem beginsWith_append_left (a : List Char) :
    ∀ b c : List Char, beginsWith (a ++ b) (a ++ c) = beginsWith b c := by
  induction a with
  | nil => intro b c; rfl
  | cons x xs ih =>
    intro b c
    simp [beginsWith, ih]

theorem beginsWith_refl_append (a c : List Char) : beginsWith a (a ++ c) = true := by
  have h := beginsWith_append_left a [] c
  rw [List.append_nil] at h
  rw [h]
  rfl

theorem beginsWith_sep_iff : ∀ (lang lc v : List Char),
    ('_' : Char) ∉ lang → ('_' : Char) ∉ lc →
    (beginsWith (lang ++ ['_']) (lc ++ '_' :: v) = true ↔ lang = lc) := by
  intro lang
  induction lang with
  | nil =>
    intro lc v h1 h2
    cases lc with
    | nil => simp [beginsWith]
    | cons c cs =>
      constructor
      · intro hb
        exfalso
        have hc : ('_' : Char) = c := by
          rw [List.nil_append, List.cons_append] at hb
          simp [beginsWith] at hb
          exact hb
        exact h2 (hc ▸ List.mem_cons_self c cs)
      · intro h
        cases h
  | cons a as ih =>
    intro lc v h1 h2
    rw [List.mem_cons, not_or] at h1
    cases lc with
    | nil =>
      constructor
      · intro hb
        exfalso
        have ha : a = '_' := by
          rw [List.cons_append, List.nil_append] at hb
          simp [beginsWith] at hb
          exact hb.1
        exact h1.1 ha.symm
      · intro h
        cases h
    | cons c cs =>
      rw [List.mem_cons, not_or] at h2
      rw [List.cons_append, List.cons_append]
      constructor
      · intro hb
        simp only [beginsWith, Bool.and_eq_true, decide_eq_true_eq] at hb
        have hrest := (ih cs v h1.2 h2.2).mp hb.2
        rw [hb.1, hrest]
      · intro h
        injection h with hac hrest
        simp only [beginsWith, Bool.and_eq_true, decide_eq_true_eq]
        exact ⟨hac, (ih cs v h1.2 h2.2).mpr hrest⟩

theorem splitChar_sep_cons (v : List Char) :
    splitChar '_' ('_' :: v) = [] :: splitChar '_' v := by
  simp [splitChar]

theorem splitChar_cons_ne (c : Char) (v : List Char) (h : ¬ c = '_') :
    splitChar '_' (c :: v) =
      match splitChar '_' v with
      | [] => [[c]]
      | s :: ss => (c :: s) :: ss := by
  simp [splitChar, h]

theorem splitChar_append_sep : ∀ (lc v : List Char), ('_' : Char) ∉ lc →
    splitChar '_' (lc ++ '_' :: v) = lc :: splitChar '_' v := by
  intro lc
  induction lc with
  | nil => intro v h; exact splitChar_sep_cons v
  | cons c cs ih =>
    intro v h
    rw [List.mem_cons, not_or] at h
    have hc : ¬ c = '_' := fun he => h.1 he.symm
    rw [List.cons_append, splitChar_cons_ne c _ hc, ih v h.2]

theorem splitChar_no_sep : ∀ v : List Char, ('_' : Char) ∉ v →
    splitChar '_' v = [v] := by
  intro v
  induction v with
  | nil => intro h; rfl
  | cons c cs ih =>
    intro h
    rw [List.mem_cons, not_or] at h
    have hc : ¬ c = '_' := fun he => h.1 he.symm
    rw [splitChar_cons_ne c cs hc, ih h.2]

theorem seg1_key (lc v : List Char) (h1 : ('_' : Char) ∉ lc)
    (h2 : ('_' : Char) ∉ v) : seg1 (lc ++ '_' :: v) = v := by
  rw [seg1, splitChar_append_sep lc v h1, splitChar_no_sep v h2]
  rfl

theorem versionKey_eq (d : TDoc) :
    versionKey d = d.language_code ++ '_' :: versionOrDefault d := rfl

theorem beginsWith_versionKey (d : TDoc) :
    beginsWith (d.language_code ++ ['_']) (versionKey d) = true := by
  rw [versionKey_eq, List.append_cons d.language_code '_' (versionOrDefault d),
    beginsWith_refl_append]

/-- C9 (amended): after the stream is consumed, the index records the
total number of documents; its language entries carry each observed
language code exactly once; and — provided no observed language code or
version string contains an underscore — each entry's translation count is
the number of documents of that language and its versions list holds
exactly the set of `versionOrDefault` values observed among that
language's documents (no duplicates). A version containing an underscore
is instead recorded truncated at its first underscore. -/
theorem c9_index_totals_counts_and_versions (docs : List TDoc)
    (hlang : ∀ d ∈ docs, ('_' : Char) ∉ d.language_code)
    (hver : ∀ d ∈ docs, ('_' : Char) ∉ versionOrDefault d) :
    (indexData docs).total_translations = docs.length ∧
    ((indexData docs).languages.map LangEntry.code).Nodup ∧
    (∀ lang, lang ∈ (indexData docs).languages.map LangEntry.code ↔
      lang ∈ docs.map TDoc.language_code) ∧
    ∀ e ∈ (indexData docs).languages,
      e.translation_count =
        (docs.filter (fun d => decide (d.language_code = e.code))).length ∧
      e.versions.Nodup ∧
      (∀ v, v ∈ e.versions ↔
        ∃ d ∈ docs, d.language_code = e.code ∧ versionOrDefault d = v) := by
  have hkeysmap : (indexData docs).languages.map LangEntry.code =
      (languageMap docs).map Prod.fst := by
    rw [indexData, List.map_map]
    rfl
  refine ⟨rfl, ?_, ?_, ?_⟩
  · rw [hkeysmap]
    exact groupByKey_keys_nodup _ docs
  · intro lang
    rw [hkeysmap]
    exact groupByKey_mem_keys _ docs lang
  · intro e he
    rcases List.mem_map.mp he with ⟨p, hp, hpe⟩
    have hcode : e.code = p.1 := by rw [← hpe]
    have hcount : e.translation_count = p.2.length := by rw [← hpe]
    have hvers : e.versions = (((versionMap docs).map Prod.fst).filter
        (fun k => beginsWith (p.1 ++ ['_']) k)).map seg1 := by rw [← hpe]
    have hpg : p ∈ groupByKey (fun d => d.language_code) docs := hp
    have hlangkey : ∃ d0 ∈ docs, d0.language_code = p.1 := by
      have hmem : p.1 ∈ (groupByKey (fun d => d.language_code) docs).map Prod.fst :=
        List.mem_map_of_mem Prod.fst hpg
      rcases List.mem_map.mp
        ((groupByKey_mem_keys (fun d => d.language_code) docs p.1).mp hmem) with
        ⟨d0, hd0, hd0l⟩
      exact ⟨d0, hd0, hd0l⟩
    rcases hlangkey with ⟨d0, hd0, hd0l⟩
    have hp1 : ('_' : Char) ∉ p.1 := hd0l ▸ hlang d0 hd0
    refine ⟨?_, ?_, ?_⟩
    · rw [hcount, hcode, groupByKey_groups (fun d => d.language_code) docs p hpg]
    · rw [hvers]
      refine List.Nodup.map_on ?_
        (List.Nodup.filter _ (groupByKey_keys_nodup versionKey docs))
      intro x hx y hy hxy
      rcases List.mem_filter.mp hx with ⟨hxk, hxpre⟩
      rcases List.mem_filter.mp hy with ⟨hyk, hypre⟩
      rcases List.mem_map.mp ((groupByKey_mem_keys versionKey docs x).mp hxk) with
        ⟨dx, hdx, hdxk⟩
      rcases List.mem_map.mp ((groupByKey_mem_keys versionKey docs y).mp hyk) with
        ⟨dy, hdy, hdyk⟩
      have hxeq : x = dx.language_code ++ '_' :: versionOrDefault dx := by
        rw [← hdxk, versionKey_eq]
      have hyeq : y = dy.language_code ++ '_' :: versionOrDefault dy := by
        rw [← hdyk, versionKey_eq]
      have hdxl : p.1 = dx.language_code := by
        refine (beginsWith_sep_iff p.1 dx.language_code (versionOrDefault dx) hp1
          (hlang dx hdx)).mp ?_
        rw [hxeq] at hxpre
        exact hxpre
      have hdyl : p.1 = dy.language_code := by
        refine (beginsWith_sep_iff p.1 dy.language_code (versionOrDefault dy) hp1
          (hlang dy hdy)).mp ?_
        rw [hyeq] at hypre
        exact hypre
      have hsx : seg1 x = versionOrDefault dx := by
        rw [hxeq, seg1_key _ _ (hlang dx hdx) (hver dx hdx)]
      have hsy : seg1 y = versionOrDefault dy := by
        rw [hyeq, seg1_key _ _ (hlang dy hdy) (hver dy hdy)]
      have hvv : versionOrDefault dx = versionOrDefault dy := by
        rw [← hsx, ← hsy, hxy]
      rw [hxeq, hyeq, ← hdxl, ← hdyl, hvv]
    · intro v
      rw [hvers]
      constructor
      · intro hv
        rcases List.mem_map.mp hv with ⟨k, hk, hkv⟩
        rcases List.mem_filter.mp hk with ⟨hkk, hkpre⟩
        rcases List.mem_map.mp ((groupByKey_mem_keys versionKey docs k).mp hkk) with
          ⟨d, hd, hdk⟩
        have hkeq : k = d.language_code ++ '_' :: versionOrDefault d := by
          rw [← hdk, versionKey_eq]
        have hdl : p.1 = d.language_code := by
          refine (beginsWith_sep_iff p.1 d.language_code (versionOrDefault d) hp1
            (hlang d hd)).mp ?_
          rw [hkeq] at hkpre
          exact hkpre
        refine ⟨d, hd, by rw [hcode, ← hdl], ?_⟩
        rw [← hkv, hkeq, seg1_key _ _ (hlang d hd) (hver d hd)]
      · rintro ⟨d, hd, hdl, hdv⟩
        refine List.mem_map.mpr ⟨versionKey d, List.mem_filter.mpr ⟨?_, ?_⟩, ?_⟩
        · exact (groupByKey_mem_keys versionKey docs _).mpr
            (List.mem_map_of_mem versionKey hd)
        · have hdl2 : d.language_code = p.1 := hdl.trans hcode
          rw [← hdl2]
          exact beginsWith_versionKey d
        · rw [versionKey_eq, seg1_key _ _ (hlang d hd) (hver d hd), hdv]

/-- C9 witness: the amended statement applied to a concrete stream of two
English documents (versions 1.0 and 2.0) and one Arabic document with an
empty version. -/
theorem c9_witness :
    (indexData tdocsC9).total_translations = tdocsC9.length ∧
    ((indexData tdocsC9).languages.map LangEntry.code).Nodup ∧
    (∀ lang, lang ∈ (indexData tdocsC9).languages.map LangEntry.code ↔
      lang ∈ tdocsC9.map TDoc.language_code) ∧
    ∀ e ∈ (indexData tdocsC9).languages,
      e.translation_count =
        (tdocsC9.filter (fun d => decide (d.language_code = e.code))).length ∧
      e.versions.Nodup ∧
      (∀ v, v ∈ e.versions ↔
        ∃ d ∈ tdocsC9, d.language_code = e.code ∧ versionOrDefault d = v) :=
  c9_index_totals_counts_and_versions tdocsC9
    (by intro d hd; fin_cases hd <;> decide)
    (by intro d hd; fin_cases hd <;> decide)

/-- C10: confirmed. A document whose `translation_version` is absent
(null) or the empty string gets the version key
`` `${language_code}_default` `` and is carried — not dropped and without
an error — in the version-map group that the version-file loop writes to
`version_default_translations.json` and `version_default_translations.csv`
inside its language directory (the language code, as an ISO 639-1 code,
contains no underscore, so `versionKey.split('_')` recovers it and the
version segment `default`). -/
theorem c10_default_version_grouping_and_files (docs : List TDoc) (d : TDoc)
    (hd : d ∈ docs)
    (hv : d.translation_version = none ∨ d.translation_version = some [])
    (hl : ('_' : Char) ∉ d.language_code) :
    versionKey d = d.language_code ++ '_' :: ("default").data ∧
    ∃ e ∈ versionFileEmits docs,
      e.dir = d.language_code ∧
      e.jsonName = ("version_default_translations.json").data ∧
      e.csvName = ("version_default_translations.csv").data ∧
      d ∈ e.contents := by
  have hvod : versionOrDefault d = ("default").data := by
    rcases hv with hv | hv <;> rw [versionOrDefault, hv]
    rfl
  have hkey : versionKey d = d.language_code ++ '_' :: ("default").data := by
    rw [versionKey_eq, hvod]
  refine ⟨hkey, ?_⟩
  have hkk : versionKey d ∈ (groupByKey versionKey docs).map Prod.fst :=
    (groupByKey_mem_keys versionKey docs _).mpr (List.mem_map_of_mem versionKey hd)
  rcases List.mem_map.mp hkk with ⟨p, hp, hpk⟩
  have hsplit : splitChar '_' p.1 = [d.language_code, ("default").data] := by
    rw [hpk, hkey, splitChar_append_sep _ _ hl,
      splitChar_no_sep (("default").data) (by decide)]
  refine ⟨{ dir := (splitChar '_' p.1).getD 0 [],
            jsonName := ("version_").data ++ (splitChar '_' p.1).getD 1 [] ++
              ("_translations.json").data,
            csvName := ("version_").data ++ (splitChar '_' p.1).getD 1 [] ++
              ("_translations.csv").data,
            contents := p.2 }, List.mem_map_of_mem _ hp, ?_, ?_, ?_, ?_⟩
  · rw [hsplit]
    rfl
  · rw [hsplit]
    show ("version_").data ++ ("default").data ++ ("_translations.json").data =
      ("version_default_translations.json").data
    decide
  · rw [hsplit]
    show ("version_").data ++ ("default").data ++ ("_translations.csv").data =
      ("version_default_translations.csv").data
    decide
  · have hgroups := groupByKey_groups versionKey docs p hp
    show d ∈ p.2
    rw [hgroups]
    exact List.mem_filter.mpr ⟨hd, by rw [hpk]; exact decide_eq_true rfl⟩

/-- C10 witness: the theorem applied to a concrete stream holding one
English document with a null version. -/
theorem c10_witness :
    versionKey tdocDefault = tdocDefault.language_code ++ '_' :: ("default").data ∧
    ∃ e ∈ versionFileEmits [tdocDefault],
      e.dir = tdocDefault.language_code ∧
      e.jsonName = ("version_default_translations.json").data ∧
      e.csvName = ("version_default_translations.csv").data ∧
      tdocDefault ∈ e.contents :=
  c10_default_version_grouping_and_files [tdocDefault] tdocDefault
    (by decide) (Or.inl (by decide)) (by decide)
